import Mathlib

/-!
Verification of `src/advanced-vector/vector.h`: a shallow embedding of the
`RawMemory<T>` / `Vector<T>` pair and proofs about the behaviour its
specification claims.

Modelling conventions.
* A raw heap address is a `Nat` (`0` plays `nullptr`).  A `RawMemory` value
  carries, besides the address and capacity of the region it owns (the two
  fields of the C++ class), the list `contents` of T objects currently
  constructed in the region, in slot order starting at slot 0.  The C++
  class does not know that list, but the list is determined by the region
  the class owns, and moving/swapping a region carries its objects along.
* Machine sizes (`size_t`) are modelled as `Nat`; realizable vectors are
  far below any wrap-around of `size_t`.
* A C++ operation that can throw becomes a function into `Except`; the
  `error` payload is the observable state at the moment the exception
  escapes the function.  Element copy construction / copy assignment is
  modelled by an oracle `copyOk : Nat → α → Bool` saying whether the k-th
  invocation on a given value succeeds; a successful copy yields an equal
  value.  Exceptions are taken to derive from `std::exception` (what the
  `catch` clauses of the source handle).  Element relocation is modelled as
  value transfer: the source selects `std::uninitialized_move_n` only when
  moving cannot throw (or the type is non-copyable), otherwise
  `std::uninitialized_copy_n`, which is the oracle-governed path here.
* Fresh allocation addresses are passed in as a parameter `newAddr`.
-/

namespace AdvancedVector

/-- Model of `RawMemory<T>` (vector.h lines 11-102): an owned region, given by
its address (`buffer_`, 0 = `nullptr`), its `capacity_`, and the T objects
constructed inside it (`contents`, in slot order from slot 0). -/
structure RawMemory (α : Type) where
  buffer_ : Nat
  capacity_ : Nat
  contents : List α
deriving DecidableEq

/-- The default-constructed / moved-from block: `buffer_ = nullptr`,
`capacity_ = 0`, nothing constructed inside. -/
def RawMemory.nullRaw : RawMemory α := ⟨0, 0, []⟩

/-- vector.h lines 104-108, `operator==(const RawMemory&, const RawMemory&)`:
equal capacity and equal address. -/
def RawMemory.eqOp (lhs rhs : RawMemory α) : Bool :=
  (lhs.capacity_ == rhs.capacity_) && (lhs.buffer_ == rhs.buffer_)

/-- vector.h lines 110-114, `operator!=(const RawMemory&, const RawMemory&)`:
capacity differs AND address differs. -/
def RawMemory.neOp (lhs rhs : RawMemory α) : Bool :=
  (lhs.capacity_ != rhs.capacity_) && (lhs.buffer_ != rhs.buffer_)

/-- vector.h lines 30-39, `RawMemory& operator=(RawMemory&&)`: guarded by
`*this != rhs` (the `neOp` above); on transfer the destination takes the
source's address, capacity (and hence the objects in the region) and the
source is nulled; otherwise nothing happens.  Returns (this, rhs) after. -/
def RawMemory.moveAssign (thisM rhs : RawMemory α) : RawMemory α × RawMemory α :=
  if RawMemory.neOp thisM rhs then
    (⟨rhs.buffer_, rhs.capacity_, rhs.contents⟩, RawMemory.nullRaw)
  else
    (thisM, rhs)

/-- vector.h lines 21-29, `RawMemory(RawMemory&&)`: same body as move
assignment, with `*this` starting from the default-initialized state. -/
def RawMemory.moveCtor (other : RawMemory α) : RawMemory α × RawMemory α :=
  RawMemory.moveAssign RawMemory.nullRaw other

/-- vector.h lines 82-85, `RawMemory::Swap`: exchanges region and capacity
(the objects live in the region and go with it). -/
def RawMemory.SwapOp (thisM other : RawMemory α) : RawMemory α × RawMemory α :=
  (other, thisM)

/-- The class invariant `Allocate` maintains (lines 89-91): a null address
exactly for capacity 0, and an empty region holds no object. -/
def RawMemory.WellFormed (m : RawMemory α) : Prop :=
  (m.buffer_ = 0 ↔ m.capacity_ = 0) ∧ (m.capacity_ = 0 → m.contents = [])

/-- Model of `Vector<T>` (vector.h lines 116-470): one owned block and the
live element count `size_`.  In every state the source can reach without
undefined behaviour, `data_.contents` is exactly the live prefix, i.e.
`data_.contents.length = size_`. -/
structure Vector (α : Type) where
  data_ : RawMemory α
  size_ : Nat
deriving DecidableEq

/-- vector.h lines 278-280, `Vector::Size`. -/
def Vector.Size (v : Vector α) : Nat := v.size_

/-- vector.h lines 281-283, `Vector::Capacity` (delegated to the block). -/
def Vector.Capacity (v : Vector α) : Nat := v.data_.capacity_

/-- vector.h lines 284-286, `Vector::Data`. -/
def Vector.Data (v : Vector α) : RawMemory α := v.data_

/-- vector.h lines 472-476, `operator==(const Vector&, const Vector&)`:
block identity (via RawMemory ==) and equal size. -/
def Vector.eqOp (lhs rhs : Vector α) : Bool :=
  RawMemory.eqOp lhs.Data rhs.Data && (lhs.Size == rhs.Size)

/-- vector.h lines 478-482, `operator!=(const Vector&, const Vector&)`:
block identity differs (via RawMemory !=) AND size differs. -/
def Vector.neOp (lhs rhs : Vector α) : Bool :=
  RawMemory.neOp lhs.Data rhs.Data && (lhs.Size != rhs.Size)

/-- vector.h lines 137-141, `Vector(Vector&&)`: member-wise move of the block
(via the RawMemory move constructor) and of the size, then `other.size_ = 0`.
Returns (the new vector, what is left of `other`). -/
def Vector.moveCtor (other : Vector α) : Vector α × Vector α :=
  (⟨(RawMemory.moveCtor other.data_).1, other.size_⟩,
   ⟨(RawMemory.moveCtor other.data_).2, 0⟩)

/-- vector.h lines 176-182, `Vector& operator=(Vector&&)` on distinct
objects: `data_ = std::move(rhs.data_); size_ = rhs.size_;`.  Note that
`rhs.size_` is left as it was.  Returns (this, rhs) after. -/
def Vector.moveAssign (thisV rhs : Vector α) : Vector α × Vector α :=
  (⟨(RawMemory.moveAssign thisV.data_ rhs.data_).1, rhs.size_⟩,
   ⟨(RawMemory.moveAssign thisV.data_ rhs.data_).2, rhs.size_⟩)

/-- vector.h lines 345-348, `Vector::Swap`: swap the blocks and the sizes. -/
def Vector.SwapOp (thisV other : Vector α) : Vector α × Vector α :=
  (⟨other.data_, other.size_⟩, ⟨thisV.data_, thisV.size_⟩)

/-- Model of `std::uninitialized_copy_n(src, n, buf + base)` under the copy
oracle (`copyOk idx x` = whether the copy constructor invoked on the element
of index `idx` succeeds): walks `src` in order, constructing a copy of each
element into the next slot; on a throw the standard algorithm destroys the
objects it itself constructed and rethrows (`error` carries the buffer after
that unwinding). -/
def uninitCopyN (copyOk : Nat → α → Bool) :
    List α → Nat → List (Option α) → Nat → Except (List (Option α)) (List (Option α))
  | [], _, buf, _ => .ok buf
  | x :: rest, idx, buf, base =>
    if copyOk idx x then
      match uninitCopyN copyOk rest (idx + 1) (buf.set base (some x)) (base + 1) with
      | .ok b => .ok b
      | .error b => .error (b.set base none)
    else
      .error buf

/-- Model of `std::destroy_n(buf + start, n)`: slots `[start, start+n)`
become raw again. -/
def destroyN : List (Option α) → Nat → Nat → List (Option α)
  | buf, _, 0 => buf
  | buf, start, n + 1 => destroyN (buf.set start none) (start + 1) n

/-- How many T objects are alive in a buffer. -/
def liveCount (buf : List (Option α)) : Nat := buf.reduceOption.length

/-- The objects constructed in slots `[0, n)` of a buffer, in slot order. -/
def liveVals (buf : List (Option α)) (n : Nat) : List α := (buf.take n).reduceOption

/-- Model of `std::uninitialized_copy_n` into fresh slots that extend the
live prefix (used by the copy constructor and the tail-extension of copy
assignment, lines 135 and 167): on success the constructed objects are
exactly the source values; on a throw the algorithm destroys what it built,
so nothing of it remains. -/
def copyList (copyOk : Nat → α → Bool) : List α → Nat → Except Unit (List α)
  | [], _ => .ok []
  | x :: rest, idx =>
    if copyOk idx x then
      match copyList copyOk rest (idx + 1) with
      | .ok l => .ok (x :: l)
      | .error e => .error e
    else
      .error ()

/-- The per-element assignment loop of copy assignment (lines 155-157):
`data_[i] = rhs[i]` for each element of `seg` in turn, under the copy
oracle; a throw leaves the slots already assigned with their new values
(`error` carries the partially overwritten contents). -/
def assignLoop (copyOk : Nat → α → Bool) : List α → Nat → List α → Except (List α) (List α)
  | [], _, dst => .ok dst
  | x :: rest, i, dst =>
    if copyOk i x then assignLoop copyOk rest (i + 1) (dst.set i x)
    else .error dst

/-- vector.h lines 132-136, `Vector(const Vector&)`: a block of capacity
`other.Size()` at a fresh address, `std::uninitialized_copy_n` of the
`size_` live elements; a mid-copy throw destroys the copies already made and
propagates, so the object never comes to exist (`error`). -/
def Vector.copyCtor (other : Vector α) (newAddr : Nat) (copyOk : Nat → α → Bool) :
    Except Unit (Vector α) :=
  match uninitCopyN copyOk (other.data_.contents.take other.size_) 0
      (List.replicate other.size_ none) 0 with
  | .error _ => .error ()
  | .ok b => .ok ⟨⟨newAddr, other.size_, liveVals b other.size_⟩, other.size_⟩

/-- vector.h lines 142-175, `Vector& operator=(const Vector&)` on distinct
objects.  If `rhs.size_ > Capacity()`: copy-and-swap through `Vector
temp(rhs)`.  Otherwise in place: assign the overlapping prefix of length
`min(size_, rhs.size_)`, then destroy the excess tail or copy-construct the
missing elements, and finally `size_ = rhs.size_`. -/
def Vector.copyAssign (thisV rhs : Vector α) (newAddr : Nat) (copyOk : Nat → α → Bool) :
    Except (Vector α) (Vector α) :=
  if rhs.size_ > thisV.data_.capacity_ then
    match Vector.copyCtor rhs newAddr copyOk with
    | .error _ => .error thisV
    | .ok temp => .ok ⟨temp.data_, rhs.size_⟩
  else
    match assignLoop copyOk (rhs.data_.contents.take (min thisV.size_ rhs.size_)) 0
        thisV.data_.contents with
    | .error cMid => .error ⟨{ thisV.data_ with contents := cMid }, thisV.size_⟩
    | .ok c1 =>
      if thisV.size_ > rhs.size_ then
        .ok ⟨{ thisV.data_ with contents := c1.take rhs.size_ }, rhs.size_⟩
      else if thisV.size_ < rhs.size_ then
        match copyList copyOk (rhs.data_.contents.take rhs.size_ |>.drop thisV.size_)
            thisV.size_ with
        | .error _ => .error ⟨{ thisV.data_ with contents := c1 }, thisV.size_⟩
        | .ok extra => .ok ⟨{ thisV.data_ with contents := c1 ++ extra }, rhs.size_⟩
      else
        .ok ⟨{ thisV.data_ with contents := c1 }, rhs.size_⟩

/-- vector.h lines 433-438, `UnusedEmplaceBack`: placement-new the new value
into slot `size_` (the argument `construct` is the outcome of
`T(std::forward<Args>(args)...)`: `none` = the constructor threw), then
`size_++`.  On success also returns the index the returned reference refers
to (`data_[size_++]`, i.e. the old `size_`).  On a throw nothing has been
written to `data_`/`size_` yet; the error carries the state of `*this` and
the (nonexistent) relocation buffer. -/
def Vector.UnusedEmplaceBack (v : Vector α) (construct : Option α) :
    Except (Vector α × List (Option α)) (Vector α × Nat) :=
  match construct with
  | none => .error (⟨v.data_, v.size_⟩, [])
  | some x =>
    .ok (⟨{ v.data_ with contents := v.data_.contents ++ [x] }, v.size_ + 1⟩, v.size_)

/-- vector.h lines 440-468, `RelocatedEmplaceBack`: a fresh block `temp` of
capacity `size_ == 0 ? 1 : size_ * 2` at `newAddr`; the new element is
constructed at slot `size_` of `temp` first; then the `size_` existing
elements are relocated into slots `[0, size_)` by
`std::uninitialized_copy_n` (the throwing path — the move path is selected
only when it cannot throw); on a throw the catch runs
`std::destroy_n(temp.GetAddress(), size_ + 1)` and rethrows, `data_` and
`size_` untouched (the error carries `*this` and the temp slots after that
cleanup).  On success the old elements are destroyed, the blocks swapped,
`size_` incremented, and the reference `data_[size_ - 1]` returned (its
index is the old `size_`). -/
def Vector.RelocatedEmplaceBack (v : Vector α) (newAddr : Nat) (construct : Option α)
    (copyOk : Nat → α → Bool) : Except (Vector α × List (Option α)) (Vector α × Nat) :=
  let newCap := if v.size_ == 0 then 1 else v.size_ * 2
  match construct with
  | none => .error (⟨v.data_, v.size_⟩, List.replicate newCap none)
  | some x =>
    let temp0 := (List.replicate newCap (none : Option α)).set v.size_ (some x)
    match uninitCopyN copyOk (v.data_.contents.take v.size_) 0 temp0 0 with
    | .error b => .error (⟨v.data_, v.size_⟩, destroyN b 0 (v.size_ + 1))
    | .ok b =>
      .ok (⟨⟨newAddr, newCap, liveVals b (v.size_ + 1)⟩, v.size_ + 1⟩, v.size_)

/-- vector.h lines 226-240, `EmplaceBack`: dispatch on `size_ == Capacity()`. -/
def Vector.EmplaceBack (v : Vector α) (newAddr : Nat) (construct : Option α)
    (copyOk : Nat → α → Bool) : Except (Vector α × List (Option α)) (Vector α × Nat) :=
  if v.size_ == v.Capacity then Vector.RelocatedEmplaceBack v newAddr construct copyOk
  else Vector.UnusedEmplaceBack v construct

/-- vector.h lines 213-218, `PushBack`: forwards to `EmplaceBack` (the
`construct` outcome is the copy/move of `value`). -/
def Vector.PushBack (v : Vector α) (construct : Option α) (newAddr : Nat)
    (copyOk : Nat → α → Bool) : Except (Vector α × List (Option α)) (Vector α × Nat) :=
  Vector.EmplaceBack v newAddr construct copyOk

/-- vector.h lines 355-383, `UnusedEmplace` at position `pos` (as an index):
for `pos == end()` delegates to `UnusedEmplaceBack` and returns `end() - 1`.
Otherwise: build the temporary `temp_obj` (`construct`), placement-new the
last element into slot `size_` (append of the value in slot `size_ - 1`),
`std::move_backward` the range `[pos, size_ - 1)` one slot right, assign the
temporary into slot `pos`, `size_++`, return index `pos`. -/
def Vector.UnusedEmplace (v : Vector α) (pos : Nat) (construct : Option α) :
    Except (Vector α × List (Option α)) (Vector α × Nat) :=
  if pos == v.size_ then
    match Vector.UnusedEmplaceBack v construct with
    | .error e => .error e
    | .ok r => .ok (r.1, r.1.size_ - 1)
  else
    match construct with
    | none => .error (⟨v.data_, v.size_⟩, [])
    | some x =>
      let c := v.data_.contents
      let c1 := c ++ c.drop (v.size_ - 1)
      let c2 := c1.take (pos + 1) ++ (c1.drop pos).dropLast
      .ok (⟨{ v.data_ with contents := c2.set pos x }, v.size_ + 1⟩, pos)

/-- vector.h lines 385-430, `RelocatedEmplace` at position `pos` (as an
index): for `pos == end()` delegates to `RelocatedEmplaceBack` and returns
`end() - 1`.  Otherwise: fresh block of capacity `size_ == 0 ? 1 : size_ *
2`, the new element constructed at slot `pos` of it first, then the two
relocation runs (`[0, pos)` to slots `[0, pos)` and `[pos, size_)` to slots
`[pos + 1, size_ + 1)`); a throw in either run triggers
`std::destroy_n(temp.GetAddress(), size_ + 1)` and propagates with `data_`
and `size_` untouched; on success destroy the old elements, swap, `size_++`,
return index `pos`. -/
def Vector.RelocatedEmplace (v : Vector α) (pos : Nat) (newAddr : Nat)
    (construct : Option α) (copyOk : Nat → α → Bool) :
    Except (Vector α × List (Option α)) (Vector α × Nat) :=
  if pos == v.size_ then
    match Vector.RelocatedEmplaceBack v newAddr construct copyOk with
    | .error e => .error e
    | .ok r => .ok (r.1, r.1.size_ - 1)
  else
    let newCap := if v.size_ == 0 then 1 else v.size_ * 2
    match construct with
    | none => .error (⟨v.data_, v.size_⟩, List.replicate newCap none)
    | some x =>
      let temp0 := (List.replicate newCap (none : Option α)).set pos (some x)
      match uninitCopyN copyOk (v.data_.contents.take v.size_ |>.take pos) 0 temp0 0 with
      | .error b => .error (⟨v.data_, v.size_⟩, destroyN b 0 (v.size_ + 1))
      | .ok t1 =>
        match uninitCopyN copyOk (v.data_.contents.take v.size_ |>.drop pos) pos t1
            (pos + 1) with
        | .error b => .error (⟨v.data_, v.size_⟩, destroyN b 0 (v.size_ + 1))
        | .ok t2 =>
          .ok (⟨⟨newAddr, newCap, liveVals t2 (v.size_ + 1)⟩, v.size_ + 1⟩, pos)

/-- vector.h lines 241-255, `Emplace`: dispatch on `size_ == Capacity()`. -/
def Vector.Emplace (v : Vector α) (pos : Nat) (newAddr : Nat) (construct : Option α)
    (copyOk : Nat → α → Bool) : Except (Vector α × List (Option α)) (Vector α × Nat) :=
  if v.size_ == v.Capacity then Vector.RelocatedEmplace v pos newAddr construct copyOk
  else Vector.UnusedEmplace v pos construct

/-- vector.h lines 219-224, `Insert`: forwards to `Emplace`. -/
def Vector.Insert (v : Vector α) (pos : Nat) (construct : Option α) (newAddr : Nat)
    (copyOk : Nat → α → Bool) : Except (Vector α × List (Option α)) (Vector α × Nat) :=
  Vector.Emplace v pos newAddr construct copyOk

/-- vector.h lines 257-259, `PopBack`: `std::destroy_at(&data_[--size_])`. -/
def Vector.PopBack (v : Vector α) : Vector α :=
  ⟨{ v.data_ with contents := v.data_.contents.take (v.size_ - 1) }, v.size_ - 1⟩

/-- vector.h lines 260-274, `Erase` at position `pos` (as an index): the
`pos == end()` branch (an invalid input, kept as the source has it) pops and
returns `end() - 1`.  Otherwise `std::move(begin() + pos + 1, end(), begin()
+ pos)` shifts the tail one slot left element by element (slot `size_ - 1`
keeps its value until `PopBack` destroys it), then `PopBack`, and the index
`pos` is returned. -/
def Vector.Erase (v : Vector α) (pos : Nat) : Vector α × Nat :=
  if pos == v.size_ then
    (Vector.PopBack v, v.size_ - 2)
  else
    let c := v.data_.contents
    let shifted := c.take pos ++ c.drop (pos + 1) ++ c.drop (v.size_ - 1)
    (Vector.PopBack ⟨{ v.data_ with contents := shifted }, v.size_⟩, pos)

end AdvancedVector

namespace AdvancedVector

/-- C1: `operator==` on two Vectors is true exactly when the blocks have the
same address and the same capacity and the sizes are equal (elements are
never compared); `operator!=` is true exactly when capacity, address and
size all three differ; and there is a pair of vectors — equal sizes, equal
element values, distinct buffers — on which both operators return false, so
`!=` is not the negation of `==`. -/
theorem vector_eqOp_neOp_characterization :
    (∀ {α : Type} (l r : Vector α),
      Vector.eqOp l r = true ↔
        (l.data_.buffer_ = r.data_.buffer_ ∧ l.data_.capacity_ = r.data_.capacity_ ∧
          l.size_ = r.size_)) ∧
    (∀ {α : Type} (l r : Vector α),
      Vector.neOp l r = true ↔
        (l.data_.buffer_ ≠ r.data_.buffer_ ∧ l.data_.capacity_ ≠ r.data_.capacity_ ∧
          l.size_ ≠ r.size_)) ∧
    (∃ l r : Vector Nat,
      l.data_.contents = r.data_.contents ∧ l.size_ = r.size_ ∧
        l.data_.buffer_ ≠ r.data_.buffer_ ∧
        Vector.eqOp l r = false ∧ Vector.neOp l r = false) := by
  refine ⟨?_, ?_, ?_⟩
  · intro α l r
    simp only [Vector.eqOp, RawMemory.eqOp, Vector.Data, Vector.Size,
      Bool.and_eq_true, beq_iff_eq]
    tauto
  · intro α l r
    simp only [Vector.neOp, RawMemory.neOp, Vector.Data, Vector.Size,
      Bool.and_eq_true, bne_iff_ne, ne_eq]
    tauto
  · exact ⟨⟨⟨1, 1, [42]⟩, 1⟩, ⟨⟨2, 1, [42]⟩, 1⟩, by decide, by decide, by decide,
      by decide, by decide⟩

/-- C3 counterexample: two well-formed blocks of the same capacity 5 at
distinct addresses 1 and 2.  Move assignment transfers nothing: the
destination does not take the source's address, and the source keeps its
capacity instead of being reset to the null state. -/
theorem rawMemory_moveAssign_equal_capacity_no_transfer :
    (RawMemory.moveAssign (⟨1, 5, []⟩ : RawMemory Nat) ⟨2, 5, []⟩).1.buffer_ ≠ 2 ∧
    (RawMemory.moveAssign (⟨1, 5, []⟩ : RawMemory Nat) ⟨2, 5, []⟩).2.capacity_ ≠ 0 := by
  decide

/-- The broken `operator!=` on RawMemory read as a proposition. -/
theorem RawMemory.neOp_true_iff (a b : RawMemory α) :
    RawMemory.neOp a b = true ↔ (a.capacity_ ≠ b.capacity_ ∧ a.buffer_ ≠ b.buffer_) := by
  simp [RawMemory.neOp]

/-- Move assignment when the guard fires: full transfer, source nulled. -/
theorem RawMemory.moveAssign_of_transfer {d s : RawMemory α}
    (h : d.capacity_ ≠ s.capacity_ ∧ d.buffer_ ≠ s.buffer_) :
    RawMemory.moveAssign d s = (s, RawMemory.nullRaw) := by
  simp only [RawMemory.moveAssign]
  rw [if_pos ((RawMemory.neOp_true_iff d s).mpr h)]

/-- Move assignment when the guard does not fire: nothing happens. -/
theorem RawMemory.moveAssign_of_noop {d s : RawMemory α}
    (h : d.capacity_ = s.capacity_ ∨ d.buffer_ = s.buffer_) :
    RawMemory.moveAssign d s = (d, s) := by
  simp only [RawMemory.moveAssign]
  rw [if_neg]
  intro hcontra
  rw [RawMemory.neOp_true_iff] at hcontra
  rcases h with h | h
  · exact hcontra.1 h
  · exact hcontra.2 h

/-- C3 (amended): move construction from any well-formed source transfers
the region and nulls the source; move assignment does so only when the two
blocks differ in BOTH capacity and address (the guard is the broken
`operator!=`), and otherwise — equal capacity or equal address, in
particular self-move — leaves both objects exactly as they were. -/
theorem rawMemory_move_transfer_characterization {α : Type}
    (d s : RawMemory α) (hs : RawMemory.WellFormed s) :
    RawMemory.moveCtor s = (s, RawMemory.nullRaw) ∧
    (d.capacity_ ≠ s.capacity_ ∧ d.buffer_ ≠ s.buffer_ →
      RawMemory.moveAssign d s = (s, RawMemory.nullRaw)) ∧
    (d.capacity_ = s.capacity_ ∨ d.buffer_ = s.buffer_ →
      RawMemory.moveAssign d s = (d, s)) ∧
    RawMemory.moveAssign s s = (s, s) := by
  obtain ⟨hiff, hempty⟩ := hs
  refine ⟨?_, RawMemory.moveAssign_of_transfer, RawMemory.moveAssign_of_noop, ?_⟩
  · by_cases hb : s.buffer_ = 0
    · have hc : s.capacity_ = 0 := hiff.mp hb
      have hs0 : s = RawMemory.nullRaw := by
        have hcont : s.contents = [] := hempty hc
        cases s
        simp_all [RawMemory.nullRaw]
      rw [hs0]
      rfl
    · have hc : s.capacity_ ≠ 0 := fun h => hb (hiff.mpr h)
      show RawMemory.moveAssign RawMemory.nullRaw s = (s, RawMemory.nullRaw)
      exact RawMemory.moveAssign_of_transfer
        ⟨fun h => hc h.symm, fun h => hb h.symm⟩
  · exact RawMemory.moveAssign_of_noop (Or.inl rfl)

/-- C3 witness: the characterization applied to the concrete pair
d = (address 1, capacity 3), s = (address 2, capacity 5). -/
theorem rawMemory_move_transfer_characterization_instance :
    RawMemory.WellFormed (⟨2, 5, [10]⟩ : RawMemory Nat) ∧
    (RawMemory.moveCtor (⟨2, 5, [10]⟩ : RawMemory Nat) = (⟨2, 5, [10]⟩, RawMemory.nullRaw) ∧
      ((3 : Nat) ≠ 5 ∧ (1 : Nat) ≠ 2 →
        RawMemory.moveAssign (⟨1, 3, []⟩ : RawMemory Nat) ⟨2, 5, [10]⟩ =
          (⟨2, 5, [10]⟩, RawMemory.nullRaw)) ∧
      ((3 : Nat) = 5 ∨ (1 : Nat) = 2 →
        RawMemory.moveAssign (⟨1, 3, []⟩ : RawMemory Nat) ⟨2, 5, [10]⟩ =
          (⟨1, 3, []⟩, ⟨2, 5, [10]⟩)) ∧
      RawMemory.moveAssign (⟨2, 5, [10]⟩ : RawMemory Nat) ⟨2, 5, [10]⟩ =
        (⟨2, 5, [10]⟩, ⟨2, 5, [10]⟩)) :=
  ⟨⟨by decide, by decide⟩,
    rawMemory_move_transfer_characterization ⟨1, 3, []⟩ ⟨2, 5, [10]⟩ ⟨by decide, by decide⟩⟩

/-- C4: evaluating Vector move assignment at a concrete input.  Moving a
one-element vector (buffer 2, capacity 1, element 7) into an empty vector
transfers the block, but the source is left with `Size() == 1`, not 0
(`rhs.size_` is never zeroed on lines 176-182); moreover when the two
vectors' capacities are equal (second conjunct: destination holds [3] at
capacity 1), the block is not transferred at all and the destination keeps
its old element values. -/
theorem vector_moveAssign_source_not_emptied :
    (Vector.moveAssign (⟨⟨0, 0, []⟩, 0⟩ : Vector Nat) ⟨⟨2, 1, [7]⟩, 1⟩).2.Size = 1 ∧
    (Vector.moveAssign (⟨⟨1, 1, [3]⟩, 1⟩ : Vector Nat) ⟨⟨2, 1, [7]⟩, 1⟩).1.data_.contents
      = [3] := by
  decide

/-- C5: the size/capacity invariant is broken by move assignment: after
moving a one-element vector into an empty one, the source has
`Size() = 1 > 0 = Capacity()` (its block was transferred away but its
`size_` was not reset). -/
theorem vector_moveAssign_invariant_violation :
    ¬ ((Vector.moveAssign (⟨⟨0, 0, []⟩, 0⟩ : Vector Nat) ⟨⟨2, 1, [7]⟩, 1⟩).2.Size ≤
        (Vector.moveAssign (⟨⟨0, 0, []⟩, 0⟩ : Vector Nat) ⟨⟨2, 1, [7]⟩, 1⟩).2.Capacity) := by
  decide

/-- Dropping from a replicated list. -/
theorem drop_replicate (a : α) : ∀ (m n : Nat),
    (List.replicate n a).drop m = List.replicate (n - m) a := by
  intro m
  induction m with
  | zero => simp
  | succ m ih =>
    intro n
    cases n with
    | zero => simp
    | succ n =>
      rw [List.replicate_succ, List.drop_succ_cons, ih n, Nat.succ_sub_succ]

/-- `reduceOption` undoes `map some`. -/
theorem reduceOption_map_some (l : List α) : (l.map some).reduceOption = l := by
  induction l with
  | nil => rfl
  | cons x t ih => rw [List.map_cons, List.reduceOption_cons_of_some, ih]

/-- `uninitCopyN` never changes the length of the slot buffer, whether it
finishes or unwinds. -/
theorem uninitCopyN_length (copyOk : Nat → α → Bool) :
    ∀ (src : List α) (idx : Nat) (buf : List (Option α)) (base : Nat),
      (∀ b, uninitCopyN copyOk src idx buf base = .ok b → b.length = buf.length) ∧
      (∀ b, uninitCopyN copyOk src idx buf base = .error b → b.length = buf.length) := by
  intro src
  induction src with
  | nil =>
    intro idx buf base
    constructor
    · intro b hb
      cases hb
      rfl
    · intro b hb
      cases hb
  | cons x rest ih =>
    intro idx buf base
    constructor
    · intro b hb
      rw [uninitCopyN] at hb
      by_cases hc : copyOk idx x = true
      · rw [if_pos hc] at hb
        cases hr : uninitCopyN copyOk rest (idx + 1) (buf.set base (some x)) (base + 1) with
        | ok b' =>
          rw [hr] at hb
          cases hb
          have := (ih (idx + 1) (buf.set base (some x)) (base + 1)).1 _ hr
          simpa using this
        | error b' =>
          rw [hr] at hb
          cases hb
      · rw [if_neg hc] at hb
        cases hb
    · intro b hb
      rw [uninitCopyN] at hb
      by_cases hc : copyOk idx x = true
      · rw [if_pos hc] at hb
        cases hr : uninitCopyN copyOk rest (idx + 1) (buf.set base (some x)) (base + 1) with
        | ok b' =>
          rw [hr] at hb
          cases hb
        | error b' =>
          rw [hr] at hb
          cases hb
          have := (ih (idx + 1) (buf.set base (some x)) (base + 1)).2 _ hr
          simpa using this
      · rw [if_neg hc] at hb
        cases hb
        rfl

/-- Closed form of a successful `uninitCopyN`: the source values stand,
wrapped in `some`, at slots `[base, base + src.length)`, everything else is
as before. -/
theorem uninitCopyN_ok_eq (copyOk : Nat → α → Bool) :
    ∀ (src : List α) (idx : Nat) (buf : List (Option α)) (base : Nat) (b : List (Option α)),
      base + src.length ≤ buf.length →
      uninitCopyN copyOk src idx buf base = .ok b →
      b = buf.take base ++ src.map some ++ buf.drop (base + src.length) := by
  intro src
  induction src with
  | nil =>
    intro idx buf base b _ hb
    cases hb
    simp
  | cons x rest ih =>
    intro idx buf base b hlen hb
    have hbase : base < buf.length := by
      simp only [List.length_cons] at hlen
      omega
    rw [uninitCopyN] at hb
    by_cases hc : copyOk idx x = true
    · rw [if_pos hc] at hb
      cases hr : uninitCopyN copyOk rest (idx + 1) (buf.set base (some x)) (base + 1) with
      | ok b' =>
        rw [hr] at hb
        cases hb
        have hlen' : (base + 1) + rest.length ≤ (buf.set base (some x)).length := by
          simp only [List.length_set, List.length_cons] at hlen ⊢
          omega
        have heq := ih (idx + 1) (buf.set base (some x)) (base + 1) _ hlen' hr
        rw [heq]
        have htake : (buf.set base (some x)).take (base + 1) =
            buf.take base ++ [some x] := by
          rw [List.set_take, List.take_succ, List.getElem?_eq_getElem hbase]
          rw [List.set_append_right _ _ (by simp [Nat.min_eq_left (Nat.le_of_lt hbase)])]
          simp [Nat.min_eq_left (Nat.le_of_lt hbase)]
        have hdrop : (buf.set base (some x)).drop (base + 1 + rest.length) =
            buf.drop (base + (rest.length + 1)) := by
          rw [List.drop_set, if_pos (by omega)]
          congr 1
          omega
        rw [htake, hdrop]
        simp [List.append_assoc]
      | error b' =>
        rw [hr] at hb
        cases hb
    · rw [if_neg hc] at hb
      cases hb

/-- When `uninitCopyN` unwinds, every slot of the reported buffer is either
what it was before the call or raw memory: the algorithm never leaves an
object of its own behind. -/
theorem uninitCopyN_error_getElem (copyOk : Nat → α → Bool) :
    ∀ (src : List α) (idx : Nat) (buf : List (Option α)) (base : Nat) (b : List (Option α)),
      uninitCopyN copyOk src idx buf base = .error b →
      ∀ i : Nat, b[i]? = buf[i]? ∨ b[i]? = some none := by
  intro src
  induction src with
  | nil =>
    intro idx buf base b hb
    cases hb
  | cons x rest ih =>
    intro idx buf base b hb i
    rw [uninitCopyN] at hb
    by_cases hc : copyOk idx x = true
    · rw [if_pos hc] at hb
      cases hr : uninitCopyN copyOk rest (idx + 1) (buf.set base (some x)) (base + 1) with
      | ok b' =>
        rw [hr] at hb
        cases hb
      | error b' =>
        rw [hr] at hb
        cases hb
        have hlen : b'.length = buf.length := by
          have := (uninitCopyN_length copyOk rest (idx + 1) (buf.set base (some x))
            (base + 1)).2 _ hr
          simpa using this
        by_cases hib : i = base
        · by_cases hlt : base < b'.length
          · right
            rw [hib, List.getElem?_set_self hlt]
          · left
            rw [hib, List.getElem?_set, if_pos rfl, if_neg hlt,
              List.getElem?_eq_none (by omega)]
        · rw [List.getElem?_set_ne (fun h => hib h.symm)]
          rcases ih (idx + 1) (buf.set base (some x)) (base + 1) b' hr i with h | h
          · left
            rw [h, List.getElem?_set_ne (fun h => hib h.symm)]
          · right
            exact h
    · rw [if_neg hc] at hb
      cases hb
      left
      rfl

/-- If some element of the source fails its copy, `uninitCopyN` ends in an
error (the first failing element is reached and throws). -/
theorem uninitCopyN_error_exists (copyOk : Nat → α → Bool) :
    ∀ (src : List α) (idx : Nat) (buf : List (Option α)) (base : Nat),
      (∃ k x, src[k]? = some x ∧ copyOk (idx + k) x = false) →
      ∃ b, uninitCopyN copyOk src idx buf base = .error b := by
  intro src
  induction src with
  | nil =>
    intro idx buf base h
    obtain ⟨k, x, hk, -⟩ := h
    simp at hk
  | cons y rest ih =>
    intro idx buf base h
    rw [uninitCopyN]
    by_cases hc : copyOk idx y = true
    · rw [if_pos hc]
      obtain ⟨k, x, hk, hfail⟩ := h
      cases k with
      | zero =>
        simp only [List.getElem?_cons_zero, Option.some.injEq] at hk
        subst hk
        rw [Nat.add_zero, hc] at hfail
        cases hfail
      | succ k =>
        simp only [List.getElem?_cons_succ] at hk
        have : ∃ b, uninitCopyN copyOk rest (idx + 1) (buf.set base (some y)) (base + 1)
            = .error b := by
          refine ih (idx + 1) (buf.set base (some y)) (base + 1) ⟨k, x, hk, ?_⟩
          rw [← hfail]
          congr 1
          omega
        obtain ⟨b, hb⟩ := this
        exact ⟨b.set base none, by rw [hb]⟩
    · rw [if_neg hc]
      exact ⟨buf, rfl⟩

/-- What `destroyN` does slot by slot. -/
theorem destroyN_getElem :
    ∀ (n : Nat) (buf : List (Option α)) (start i : Nat),
      (destroyN buf start n)[i]? =
        if start ≤ i ∧ i < start + n ∧ i < buf.length then some none else buf[i]? := by
  intro n
  induction n with
  | zero =>
    intro buf start i
    rw [destroyN, if_neg (by omega)]
  | succ n ih =>
    intro buf start i
    rw [destroyN, ih, List.length_set]
    by_cases hib : i = start
    · subst hib
      by_cases hlt : i < buf.length
      · rw [if_neg (by omega), if_pos (by omega), List.getElem?_set_self hlt]
      · rw [if_neg (by omega), if_neg (by omega), List.getElem?_set, if_pos rfl,
          if_neg (by omega), List.getElem?_eq_none (by omega)]
    · rw [List.getElem?_set_ne (fun h => hib h.symm)]
      by_cases hcond : start ≤ i ∧ i < start + (n + 1) ∧ i < buf.length
      · rw [if_pos (by omega), if_pos (by omega)]
      · rw [if_neg (by omega), if_neg (by omega)]

/-- A buffer whose every slot is raw holds no live object. -/
theorem liveCount_eq_zero :
    ∀ (buf : List (Option α)), (∀ i : Nat, buf[i]? = some none ∨ buf[i]? = none) →
      liveCount buf = 0 := by
  intro buf
  induction buf with
  | nil =>
    intro _
    rfl
  | cons a t ih =>
    intro h
    have h0 := h 0
    simp only [List.getElem?_cons_zero, Option.some.injEq, reduceCtorEq, or_false] at h0
    subst h0
    rw [liveCount, List.reduceOption_cons_of_none]
    exact ih fun i => by simpa using h (i + 1)

/-- Closed form of a successful `assignLoop`: the segment overwrites the
destination values starting at the start index. -/
theorem assignLoop_ok (copyOk : Nat → α → Bool) :
    ∀ (seg : List α) (i : Nat) (dst c1 : List α),
      i + seg.length ≤ dst.length →
      assignLoop copyOk seg i dst = .ok c1 →
      c1 = dst.take i ++ seg ++ dst.drop (i + seg.length) := by
  intro seg
  induction seg with
  | nil =>
    intro i dst c1 _ hb
    cases hb
    simp
  | cons x rest ih =>
    intro i dst c1 hlen hb
    have hbase : i < dst.length := by
      simp only [List.length_cons] at hlen
      omega
    rw [assignLoop] at hb
    by_cases hc : copyOk i x = true
    · rw [if_pos hc] at hb
      have hlen' : (i + 1) + rest.length ≤ (dst.set i x).length := by
        simp only [List.length_set, List.length_cons] at hlen ⊢
        omega
      have heq := ih (i + 1) (dst.set i x) c1 hlen' hb
      rw [heq]
      have htake : (dst.set i x).take (i + 1) = dst.take i ++ [x] := by
        rw [List.set_take, List.take_succ, List.getElem?_eq_getElem hbase]
        rw [List.set_append_right _ _ (by simp [Nat.min_eq_left (Nat.le_of_lt hbase)])]
        simp [Nat.min_eq_left (Nat.le_of_lt hbase)]
      have hdrop : (dst.set i x).drop (i + 1 + rest.length) =
          dst.drop (i + (rest.length + 1)) := by
        rw [List.drop_set, if_pos (by omega)]
        congr 1
        omega
      rw [htake, hdrop]
      simp [List.append_assoc]
    · rw [if_neg hc] at hb
      cases hb

/-- The grown capacity `size_ == 0 ? 1 : size_ * 2` always exceeds the old
size. -/
theorem size_lt_newCap (s : Nat) : s < (if s == 0 then 1 else s * 2) := by
  by_cases h0 : s = 0
  · simp [h0]
  · simp only [beq_iff_eq, h0, if_false]
    omega

/-- The grown capacity equals `max 1 (2 * size)`. -/
theorem newCap_eq_max (s : Nat) : (if s == 0 then 1 else s * 2) = max 1 (2 * s) := by
  by_cases h0 : s = 0
  · simp [h0]
  · simp only [beq_iff_eq, h0, if_false]
    omega

/-- Dropping the first `s` slots of the relocation buffer right after the new
element was placed at slot `s`. -/
theorem temp0_drop (x : α) (n s : Nat) (hsn : s < n) :
    ((List.replicate n (none : Option α)).set s (some x)).drop s
      = some x :: List.replicate (n - s - 1) none := by
  rw [List.drop_set, if_neg (lt_irrefl s), Nat.sub_self, drop_replicate]
  have hn : n - s = (n - s - 1) + 1 := by omega
  rw [hn, List.replicate_succ]
  rfl

/-- Reading off the constructed elements of a fully relocated buffer: the
`c.length` relocated values, then the newly constructed one. -/
theorem liveVals_reloc (c : List α) (x : α) (rest : List (Option α)) :
    liveVals (c.map some ++ (some x :: rest)) (c.length + 1) = c ++ [x] := by
  rw [liveVals, List.take_append_eq_append_take,
    List.take_of_length_le (by simp),
    List.length_map, Nat.add_sub_cancel_left, List.take_succ_cons, List.take_zero,
    List.reduceOption_append, reduceOption_map_some,
    List.reduceOption_cons_of_some, List.reduceOption_nil]

/-- A successful `copyList` returns exactly its source values. -/
theorem copyList_ok (copyOk : Nat → α → Bool) :
    ∀ (seg : List α) (i : Nat) (l : List α),
      copyList copyOk seg i = .ok l → l = seg := by
  intro seg
  induction seg with
  | nil =>
    intro i l hb
    cases hb
    rfl
  | cons x rest ih =>
    intro i l hb
    rw [copyList] at hb
    by_cases hc : copyOk i x = true
    · rw [if_pos hc] at hb
      cases hr : copyList copyOk rest (i + 1) with
      | ok l' =>
        rw [hr] at hb
        cases hb
        rw [ih (i + 1) l' hr]
      | error e =>
        rw [hr] at hb
        cases hb
    · rw [if_neg hc] at hb
      cases hb

/-- Full characterization of a successful `RelocatedEmplaceBack`: doubled
(or initial 1) capacity at the fresh address, the old elements followed by
the new one, size incremented, and the returned reference index is the old
size. -/
theorem relocatedEmplaceBack_ok_eq {α : Type} (v : Vector α) (newAddr : Nat) (x : α)
    (copyOk : Nat → α → Bool) (r : Vector α × Nat)
    (hwf : v.data_.contents.length = v.size_)
    (h : Vector.RelocatedEmplaceBack v newAddr (some x) copyOk = .ok r) :
    r = (⟨⟨newAddr, if v.size_ == 0 then 1 else v.size_ * 2,
      v.data_.contents ++ [x]⟩, v.size_ + 1⟩, v.size_) := by
  have hsn : v.size_ < (if v.size_ == 0 then 1 else v.size_ * 2) := size_lt_newCap v.size_
  simp only [Vector.RelocatedEmplaceBack] at h
  cases hu : uninitCopyN copyOk (v.data_.contents.take v.size_) 0
      ((List.replicate (if v.size_ == 0 then 1 else v.size_ * 2) (none : Option α)).set
        v.size_ (some x)) 0 with
  | error b =>
    rw [hu] at h
    cases h
  | ok b =>
    rw [hu] at h
    cases h
    have hsrc : v.data_.contents.take v.size_ = v.data_.contents :=
      List.take_of_length_le (le_of_eq hwf)
    have hb := uninitCopyN_ok_eq copyOk _ 0 _ 0 _
      (by
        rw [hsrc, List.length_set, List.length_replicate]
        omega) hu
    rw [hsrc] at hb
    rw [List.take_zero, List.nil_append, Nat.zero_add, hwf,
      temp0_drop x _ v.size_ hsn] at hb
    have hlv : liveVals b (v.size_ + 1) = v.data_.contents ++ [x] := by
      rw [hb, ← hwf]
      exact liveVals_reloc v.data_.contents x _
    rw [hlv]

/-- C2: with `size_ == Capacity()`, `EmplaceBack` relocates; if an element's
copy throws while the existing elements are transferred into the new buffer
(first conjunct: any error outcome at all), the exception propagates with
every object placed in the relocation buffer — the relocated ones and the
newly constructed element — destroyed, and `*this` exactly as before the
call (same block, hence same capacity and element values, and same size);
the second conjunct shows the exception does propagate whenever some element
of the vector fails its copy. -/
theorem emplaceBack_relocation_strong_guarantee {α : Type} (v : Vector α) (arg : α)
    (newAddr : Nat) (copyOk : Nat → α → Bool)
    (hwf : v.data_.contents.length = v.size_)
    (hfull : v.size_ = v.Capacity) :
    (∀ e, Vector.EmplaceBack v newAddr (some arg) copyOk = .error e →
      e.1 = v ∧ liveCount e.2 = 0) ∧
    ((∃ k : Nat, ∃ x, v.data_.contents[k]? = some x ∧ copyOk k x = false) →
      ∃ e, Vector.EmplaceBack v newAddr (some arg) copyOk = .error e) := by
  have hsn : v.size_ < (if v.size_ == 0 then 1 else v.size_ * 2) := size_lt_newCap v.size_
  have hdisp : Vector.EmplaceBack v newAddr (some arg) copyOk
      = Vector.RelocatedEmplaceBack v newAddr (some arg) copyOk := by
    rw [Vector.EmplaceBack, if_pos (by rw [hfull, beq_self_eq_true])]
  have hsrc : v.data_.contents.take v.size_ = v.data_.contents :=
    List.take_of_length_le (le_of_eq hwf)
  constructor
  · intro e he
    rw [hdisp] at he
    simp only [Vector.RelocatedEmplaceBack] at he
    cases hu : uninitCopyN copyOk (v.data_.contents.take v.size_) 0
        ((List.replicate (if v.size_ == 0 then 1 else v.size_ * 2) (none : Option α)).set
          v.size_ (some arg)) 0 with
    | ok b =>
      rw [hu] at he
      cases he
    | error b =>
      rw [hu] at he
      cases he
      refine ⟨rfl, liveCount_eq_zero _ ?_⟩
      intro i
      have hblen : b.length =
          (if v.size_ == 0 then 1 else v.size_ * 2) := by
        have := (uninitCopyN_length copyOk _ 0 _ 0).2 _ hu
        rw [this, List.length_set, List.length_replicate]
      rw [destroyN_getElem]
      by_cases hcut : 0 ≤ i ∧ i < 0 + (v.size_ + 1) ∧ i < b.length
      · rw [if_pos hcut]
        left
        rfl
      · rw [if_neg hcut]
        rcases uninitCopyN_error_getElem copyOk _ 0 _ 0 _ hu i with hslot | hslot
        · rw [hslot, List.getElem?_set]
          by_cases his : v.size_ = i
          · exfalso
            omega
          · rw [if_neg his, List.getElem?_replicate]
            by_cases hir : i < (if v.size_ == 0 then 1 else v.size_ * 2)
            · rw [if_pos hir]
              left
              rfl
            · rw [if_neg hir]
              right
              rfl
        · left
          exact hslot
  · intro hthrow
    rw [hdisp]
    simp only [Vector.RelocatedEmplaceBack]
    have hex : ∃ b, uninitCopyN copyOk (v.data_.contents.take v.size_) 0
        ((List.replicate (if v.size_ == 0 then 1 else v.size_ * 2) (none : Option α)).set
          v.size_ (some arg)) 0 = .error b := by
      refine uninitCopyN_error_exists copyOk _ 0 _ 0 ?_
      obtain ⟨k, x, hk, hfail⟩ := hthrow
      exact ⟨k, x, by rw [hsrc]; exact hk, by rw [Nat.zero_add]; exact hfail⟩
    obtain ⟨b, hb⟩ := hex
    exact ⟨_, by rw [hb]⟩

/-- C2 witness: a vector of two elements at full capacity whose second
element's copy throws during relocation. -/
theorem emplaceBack_relocation_strong_guarantee_instance :
    ((⟨⟨1, 2, [10, 20]⟩, 2⟩ : Vector Nat).data_.contents.length
        = (⟨⟨1, 2, [10, 20]⟩, 2⟩ : Vector Nat).size_) ∧
    ((⟨⟨1, 2, [10, 20]⟩, 2⟩ : Vector Nat).size_
        = (⟨⟨1, 2, [10, 20]⟩, 2⟩ : Vector Nat).Capacity) ∧
    ((∀ e, Vector.EmplaceBack (⟨⟨1, 2, [10, 20]⟩, 2⟩ : Vector Nat) 7 (some 99)
        (fun i _ => !(i == 1)) = .error e →
        e.1 = (⟨⟨1, 2, [10, 20]⟩, 2⟩ : Vector Nat) ∧ liveCount e.2 = 0) ∧
      ((∃ k : Nat, ∃ x, (⟨⟨1, 2, [10, 20]⟩, 2⟩ : Vector Nat).data_.contents[k]? = some x ∧
          (fun (i : Nat) (_ : Nat) => !(i == 1)) k x = false) →
        ∃ e, Vector.EmplaceBack (⟨⟨1, 2, [10, 20]⟩, 2⟩ : Vector Nat) 7 (some 99)
          (fun i _ => !(i == 1)) = .error e)) :=
  ⟨by decide, by decide,
    emplaceBack_relocation_strong_guarantee (⟨⟨1, 2, [10, 20]⟩, 2⟩ : Vector Nat) 99 7
      (fun i _ => !(i == 1)) (by decide) (by decide)⟩

/-- C9: with free capacity, `EmplaceBack` takes the in-place branch: if the
element constructor throws (`none`), the vector — size, capacity and
elements — is exactly as before and nothing else happened; on success the
new value is constructed in slot `size_` (appended after the live prefix)
and only then is `size_` incremented, the returned reference referring to
that slot. -/
theorem emplaceBack_in_place_ordering {α : Type} (v : Vector α) (x : α)
    (newAddr : Nat) (copyOk : Nat → α → Bool) (hlt : v.size_ < v.Capacity) :
    Vector.EmplaceBack v newAddr none copyOk = .error (v, []) ∧
    Vector.EmplaceBack v newAddr (some x) copyOk =
      .ok (⟨{ v.data_ with contents := v.data_.contents ++ [x] }, v.size_ + 1⟩, v.size_) := by
  have hdisp : (v.size_ == v.Capacity) = false := by
    simp only [beq_eq_false_iff_ne, ne_eq]
    omega
  constructor
  · rw [Vector.EmplaceBack, hdisp]
    rfl
  · rw [Vector.EmplaceBack, hdisp]
    rfl

/-- With at least one element, the grown capacity also has room for the old
elements plus the new one. -/
theorem size_succ_le_newCap (s : Nat) (h : 1 ≤ s) :
    s + 1 ≤ (if s == 0 then 1 else s * 2) := by
  simp only [beq_iff_eq]
  rw [if_neg (by omega)]
  omega

/-- Full characterization of a successful `UnusedEmplace` strictly inside the
sequence: the value ends in slot `pos`, everything from `pos` on is shifted
one slot right, the block is unchanged, size is incremented and the returned
iterator index is `pos`. -/
theorem unusedEmplace_mid_eq {α : Type} (v : Vector α) (pos : Nat) (x : α)
    (hwf : v.data_.contents.length = v.size_) (hpos : pos < v.size_) :
    Vector.UnusedEmplace v pos (some x) =
      .ok (⟨{ v.data_ with contents :=
        v.data_.contents.take pos ++ x :: v.data_.contents.drop pos }, v.size_ + 1⟩, pos) := by
  rw [Vector.UnusedEmplace, if_neg (by simp only [beq_iff_eq]; omega)]
  have hlast : ∃ a, v.data_.contents.drop (v.size_ - 1) = [a] := by
    rw [← List.length_eq_one, List.length_drop, hwf]
    omega
  obtain ⟨a, ha⟩ := hlast
  have hppos : pos + 1 ≤ v.data_.contents.length := by omega
  have hc2 : ((v.data_.contents ++ v.data_.contents.drop (v.size_ - 1)).take (pos + 1) ++
      ((v.data_.contents ++ v.data_.contents.drop (v.size_ - 1)).drop pos).dropLast).set pos x
      = v.data_.contents.take pos ++ x :: v.data_.contents.drop pos := by
    rw [ha, List.take_append_of_le_length hppos,
      List.drop_append_of_le_length (by omega), List.dropLast_concat]
    rw [List.set_append_left _ _ (by
      rw [List.length_take]
      omega)]
    rw [List.take_succ, List.getElem?_eq_getElem (by omega), List.set_append_right _ _ (by
      rw [List.length_take]
      omega)]
    have hmin : pos ⊓ v.data_.contents.length = pos := Nat.min_eq_left (by omega)
    simp [hmin]
  simp only [hc2]

/-- Full characterization of a successful `RelocatedEmplace` strictly inside
the sequence: a fresh block of the doubled capacity holding the old prefix,
the new value at slot `pos` and the old suffix after it; size is incremented
and the returned iterator index is `pos`. -/
theorem relocatedEmplace_mid_eq {α : Type} (v : Vector α) (pos newAddr : Nat) (x : α)
    (copyOk : Nat → α → Bool) (r : Vector α × Nat)
    (hwf : v.data_.contents.length = v.size_) (hpos : pos < v.size_)
    (h : Vector.RelocatedEmplace v pos newAddr (some x) copyOk = .ok r) :
    r = (⟨⟨newAddr, if v.size_ == 0 then 1 else v.size_ * 2,
      v.data_.contents.take pos ++ x :: v.data_.contents.drop pos⟩, v.size_ + 1⟩, pos) := by
  have hsn : v.size_ < (if v.size_ == 0 then 1 else v.size_ * 2) := size_lt_newCap v.size_
  have hsucc : v.size_ + 1 ≤ (if v.size_ == 0 then 1 else v.size_ * 2) :=
    size_succ_le_newCap v.size_ (by omega)
  have hsrc : v.data_.contents.take v.size_ = v.data_.contents :=
    List.take_of_length_le (le_of_eq hwf)
  cases hu1 : uninitCopyN copyOk (v.data_.contents.take pos) 0
      ((List.replicate (if v.size_ == 0 then 1 else v.size_ * 2) (none : Option α)).set
        pos (some x)) 0 with
  | error b =>
    have hres : Vector.RelocatedEmplace v pos newAddr (some x) copyOk
        = .error (⟨v.data_, v.size_⟩, destroyN b 0 (v.size_ + 1)) := by
      rw [Vector.RelocatedEmplace, if_neg (by simp only [beq_iff_eq]; omega)]
      simp only [hsrc, hu1]
    rw [hres] at h
    cases h
  | ok t1 =>
    have hlen1 : (v.data_.contents.take pos).length = pos := by
      rw [List.length_take]
      omega
    have ht1 := uninitCopyN_ok_eq copyOk _ 0 _ 0 _
      (by
        rw [hlen1, List.length_set, List.length_replicate]
        omega) hu1
    rw [List.take_zero, List.nil_append, Nat.zero_add, hlen1,
      temp0_drop x _ pos (by omega)] at ht1
    cases hu2 : uninitCopyN copyOk (v.data_.contents.drop pos) pos t1 (pos + 1) with
    | error b =>
      have hres : Vector.RelocatedEmplace v pos newAddr (some x) copyOk
          = .error (⟨v.data_, v.size_⟩, destroyN b 0 (v.size_ + 1)) := by
        rw [Vector.RelocatedEmplace, if_neg (by simp only [beq_iff_eq]; omega)]
        simp only [hsrc, hu1, hu2]
      rw [hres] at h
      cases h
    | ok t2 =>
      have hlen2 : (v.data_.contents.drop pos).length = v.size_ - pos := by
        rw [List.length_drop, hwf]
      have ht1len : t1.length = (if v.size_ == 0 then 1 else v.size_ * 2) := by
        rw [ht1, List.length_append, List.length_map, hlen1, List.length_cons,
          List.length_replicate]
        omega
      have ht2 := uninitCopyN_ok_eq copyOk _ pos _ (pos + 1) _
        (by
          rw [hlen2, ht1len]
          omega) hu2
      have htake1 : t1.take (pos + 1) = (v.data_.contents.take pos).map some ++ [some x] := by
        rw [ht1, List.take_append_eq_append_take, List.take_of_length_le (by
          rw [List.length_map, hlen1]
          omega), List.length_map, hlen1,
          Nat.add_sub_cancel_left, List.take_succ_cons, List.take_zero]
      have hlv : liveVals t2 (v.size_ + 1)
          = v.data_.contents.take pos ++ x :: v.data_.contents.drop pos := by
        rw [ht2, htake1, hlen2, liveVals]
        have hcomb : ((v.data_.contents.take pos).map some ++ [some x]) ++
            (v.data_.contents.drop pos).map some ++
              t1.drop (pos + 1 + (v.size_ - pos)) =
            (((v.data_.contents.take pos).map some ++ [some x]) ++
              (v.data_.contents.drop pos).map some) ++
              t1.drop (pos + 1 + (v.size_ - pos)) := by
          simp [List.append_assoc]
        rw [hcomb, List.take_left' (by
          simp only [List.length_append, List.length_map, List.length_cons,
            List.length_nil, hlen1, List.length_drop, hwf]
          omega)]
        simp only [List.append_assoc, List.reduceOption_append, reduceOption_map_some,
          List.reduceOption_cons_of_some, List.reduceOption_nil]
        rfl
      have hres : Vector.RelocatedEmplace v pos newAddr (some x) copyOk
          = .ok (⟨⟨newAddr, if v.size_ == 0 then 1 else v.size_ * 2,
            liveVals t2 (v.size_ + 1)⟩, v.size_ + 1⟩, pos) := by
        rw [Vector.RelocatedEmplace, if_neg (by simp only [beq_iff_eq]; omega)]
        simp only [hsrc, hu1, hu2]
      rw [h] at hres
      rw [Except.ok.inj hres, hlv]

/-- C9 witness: a vector of one element with capacity 3. -/
theorem emplaceBack_in_place_ordering_instance :
    ((⟨⟨1, 3, [5]⟩, 1⟩ : Vector Nat).size_ < (⟨⟨1, 3, [5]⟩, 1⟩ : Vector Nat).Capacity) ∧
    (Vector.EmplaceBack (⟨⟨1, 3, [5]⟩, 1⟩ : Vector Nat) 7 none (fun _ _ => true)
        = .error (⟨⟨1, 3, [5]⟩, 1⟩, []) ∧
      Vector.EmplaceBack (⟨⟨1, 3, [5]⟩, 1⟩ : Vector Nat) 7 (some 9) (fun _ _ => true)
        = .ok (⟨⟨1, 3, [5, 9]⟩, 2⟩, 1)) :=
  ⟨by decide,
    emplaceBack_in_place_ordering (⟨⟨1, 3, [5]⟩, 1⟩ : Vector Nat) 9 7 (fun _ _ => true)
      (by decide)⟩

/-- C6: a single-element insertion through any of the four entry points
grows the capacity to exactly `max 1 (2 * size_before)` when the vector is
full (`size == capacity`), and inserts into the existing block — capacity
and buffer address unchanged — when `size < capacity`. -/
theorem single_insertion_growth_policy {α : Type} (v : Vector α) (pos newAddr : Nat)
    (x : α) (copyOk : Nat → α → Bool)
    (hwf : v.data_.contents.length = v.size_) (hpos : pos ≤ v.size_) :
    ((v.size_ = v.Capacity → ∀ r, Vector.EmplaceBack v newAddr (some x) copyOk = .ok r →
        r.1.Capacity = max 1 (2 * v.size_)) ∧
      (v.size_ < v.Capacity → ∀ r, Vector.EmplaceBack v newAddr (some x) copyOk = .ok r →
        r.1.Capacity = v.Capacity ∧ r.1.data_.buffer_ = v.data_.buffer_)) ∧
    ((v.size_ = v.Capacity → ∀ r, Vector.PushBack v (some x) newAddr copyOk = .ok r →
        r.1.Capacity = max 1 (2 * v.size_)) ∧
      (v.size_ < v.Capacity → ∀ r, Vector.PushBack v (some x) newAddr copyOk = .ok r →
        r.1.Capacity = v.Capacity ∧ r.1.data_.buffer_ = v.data_.buffer_)) ∧
    ((v.size_ = v.Capacity → ∀ r, Vector.Emplace v pos newAddr (some x) copyOk = .ok r →
        r.1.Capacity = max 1 (2 * v.size_)) ∧
      (v.size_ < v.Capacity → ∀ r, Vector.Emplace v pos newAddr (some x) copyOk = .ok r →
        r.1.Capacity = v.Capacity ∧ r.1.data_.buffer_ = v.data_.buffer_)) ∧
    ((v.size_ = v.Capacity → ∀ r, Vector.Insert v pos (some x) newAddr copyOk = .ok r →
        r.1.Capacity = max 1 (2 * v.size_)) ∧
      (v.size_ < v.Capacity → ∀ r, Vector.Insert v pos (some x) newAddr copyOk = .ok r →
        r.1.Capacity = v.Capacity ∧ r.1.data_.buffer_ = v.data_.buffer_)) := by
  have hEBfull : v.size_ = v.Capacity →
      ∀ r, Vector.EmplaceBack v newAddr (some x) copyOk = .ok r →
        r.1.Capacity = max 1 (2 * v.size_) := by
    intro hfull r h
    rw [Vector.EmplaceBack, if_pos (by rw [hfull, beq_self_eq_true])] at h
    rw [relocatedEmplaceBack_ok_eq v newAddr x copyOk r hwf h]
    exact newCap_eq_max v.size_
  have hEBslack : v.size_ < v.Capacity →
      ∀ r, Vector.EmplaceBack v newAddr (some x) copyOk = .ok r →
        r.1.Capacity = v.Capacity ∧ r.1.data_.buffer_ = v.data_.buffer_ := by
    intro hlt r h
    rw [Vector.EmplaceBack,
      if_neg (by simp only [beq_iff_eq]; omega)] at h
    cases h
    exact ⟨rfl, rfl⟩
  have hEmfull : v.size_ = v.Capacity →
      ∀ r, Vector.Emplace v pos newAddr (some x) copyOk = .ok r →
        r.1.Capacity = max 1 (2 * v.size_) := by
    intro hfull r h
    rw [Vector.Emplace, if_pos (by rw [hfull, beq_self_eq_true])] at h
    by_cases hpe : pos = v.size_
    · rw [Vector.RelocatedEmplace, if_pos (by rw [hpe, beq_self_eq_true])] at h
      cases hu : Vector.RelocatedEmplaceBack v newAddr (some x) copyOk with
      | error e =>
        rw [hu] at h
        cases h
      | ok r' =>
        rw [hu] at h
        cases h
        rw [relocatedEmplaceBack_ok_eq v newAddr x copyOk r' hwf hu]
        exact newCap_eq_max v.size_
    · rw [relocatedEmplace_mid_eq v pos newAddr x copyOk r hwf (by omega) h]
      exact newCap_eq_max v.size_
  have hEmslack : v.size_ < v.Capacity →
      ∀ r, Vector.Emplace v pos newAddr (some x) copyOk = .ok r →
        r.1.Capacity = v.Capacity ∧ r.1.data_.buffer_ = v.data_.buffer_ := by
    intro hlt r h
    rw [Vector.Emplace, if_neg (by simp only [beq_iff_eq]; omega)] at h
    by_cases hpe : pos = v.size_
    · rw [Vector.UnusedEmplace, if_pos (by rw [hpe, beq_self_eq_true])] at h
      cases h
      exact ⟨rfl, rfl⟩
    · rw [unusedEmplace_mid_eq v pos x hwf (by omega)] at h
      cases h
      exact ⟨rfl, rfl⟩
  exact ⟨⟨hEBfull, hEBslack⟩, ⟨hEBfull, hEBslack⟩, ⟨hEmfull, hEmslack⟩, ⟨hEmfull, hEmslack⟩⟩

/-- C6 witness: a full vector of one element (capacity 1), insertion
position 0; the relocating append is evaluated concretely. -/
theorem single_insertion_growth_policy_instance :
    ((⟨⟨1, 1, [5]⟩, 1⟩ : Vector Nat).data_.contents.length
        = (⟨⟨1, 1, [5]⟩, 1⟩ : Vector Nat).size_) ∧
    ((0 : Nat) ≤ (⟨⟨1, 1, [5]⟩, 1⟩ : Vector Nat).size_) ∧
    Vector.EmplaceBack (⟨⟨1, 1, [5]⟩, 1⟩ : Vector Nat) 7 (some 9) (fun _ _ => true)
      = .ok (⟨⟨7, 2, [5, 9]⟩, 2⟩, 1) ∧
    (((⟨⟨1, 1, [5]⟩, 1⟩ : Vector Nat).size_ = (⟨⟨1, 1, [5]⟩, 1⟩ : Vector Nat).Capacity →
        ∀ r, Vector.EmplaceBack (⟨⟨1, 1, [5]⟩, 1⟩ : Vector Nat) 7 (some 9)
          (fun _ _ => true) = .ok r →
          r.1.Capacity = max 1 (2 * (⟨⟨1, 1, [5]⟩, 1⟩ : Vector Nat).size_)) ∧
      ((⟨⟨1, 1, [5]⟩, 1⟩ : Vector Nat).size_ < (⟨⟨1, 1, [5]⟩, 1⟩ : Vector Nat).Capacity →
        ∀ r, Vector.EmplaceBack (⟨⟨1, 1, [5]⟩, 1⟩ : Vector Nat) 7 (some 9)
          (fun _ _ => true) = .ok r →
          r.1.Capacity = (⟨⟨1, 1, [5]⟩, 1⟩ : Vector Nat).Capacity ∧
            r.1.data_.buffer_ = (⟨⟨1, 1, [5]⟩, 1⟩ : Vector Nat).data_.buffer_)) :=
  ⟨by decide, by decide, by rfl,
    (single_insertion_growth_policy (⟨⟨1, 1, [5]⟩, 1⟩ : Vector Nat) 0 7 9
      (fun _ _ => true) (by decide) (by decide)).1⟩

/-- C10: after a successful `EmplaceBack` (and `PushBack`) the returned
reference refers to the element now at index `Size() - 1`, which holds the
newly appended value; after a successful `Emplace` (and `Insert`) at a
valid position the returned iterator index is that position and the element
there is the newly inserted value — in both the relocating and
non-relocating branches (the proof splits on `size == capacity` and on
`pos == end`). -/
theorem insertion_returns_new_element_position {α : Type} (v : Vector α)
    (pos newAddr : Nat) (x : α) (copyOk : Nat → α → Bool)
    (hwf : v.data_.contents.length = v.size_) (hpos : pos ≤ v.size_) :
    (∀ r, Vector.EmplaceBack v newAddr (some x) copyOk = .ok r →
      r.1.size_ = v.size_ + 1 ∧ r.2 = r.1.size_ - 1 ∧ r.1.data_.contents[r.2]? = some x) ∧
    (∀ r, Vector.PushBack v (some x) newAddr copyOk = .ok r →
      r.1.size_ = v.size_ + 1 ∧ r.2 = r.1.size_ - 1 ∧ r.1.data_.contents[r.2]? = some x) ∧
    (∀ r, Vector.Emplace v pos newAddr (some x) copyOk = .ok r →
      r.1.size_ = v.size_ + 1 ∧ r.2 = pos ∧ r.1.data_.contents[pos]? = some x) ∧
    (∀ r, Vector.Insert v pos (some x) newAddr copyOk = .ok r →
      r.1.size_ = v.size_ + 1 ∧ r.2 = pos ∧ r.1.data_.contents[pos]? = some x) := by
  have happend : (v.data_.contents ++ [x])[v.size_]? = some x := by
    rw [List.getElem?_append_right (le_of_eq hwf), hwf, Nat.sub_self,
      List.getElem?_cons_zero]
  have hmid : pos < v.size_ →
      (v.data_.contents.take pos ++ x :: v.data_.contents.drop pos)[pos]? = some x := by
    intro hplt
    rw [List.getElem?_append_right (by
      rw [List.length_take]
      omega)]
    have h0 : pos - (v.data_.contents.take pos).length = 0 := by
      rw [List.length_take]
      omega
    rw [h0, List.getElem?_cons_zero]
  have hEB : ∀ r, Vector.EmplaceBack v newAddr (some x) copyOk = .ok r →
      r.1.size_ = v.size_ + 1 ∧ r.2 = r.1.size_ - 1 ∧
        r.1.data_.contents[r.2]? = some x := by
    intro r h
    rw [Vector.EmplaceBack] at h
    by_cases hfull : (v.size_ == v.Capacity) = true
    · rw [if_pos hfull] at h
      rw [relocatedEmplaceBack_ok_eq v newAddr x copyOk r hwf h]
      exact ⟨rfl, rfl, happend⟩
    · rw [if_neg hfull] at h
      cases h
      exact ⟨rfl, rfl, happend⟩
  have hEm : ∀ r, Vector.Emplace v pos newAddr (some x) copyOk = .ok r →
      r.1.size_ = v.size_ + 1 ∧ r.2 = pos ∧ r.1.data_.contents[pos]? = some x := by
    intro r h
    rw [Vector.Emplace] at h
    by_cases hfull : (v.size_ == v.Capacity) = true
    · rw [if_pos hfull] at h
      by_cases hpe : pos = v.size_
      · rw [Vector.RelocatedEmplace, if_pos (by rw [hpe, beq_self_eq_true])] at h
        cases hu : Vector.RelocatedEmplaceBack v newAddr (some x) copyOk with
        | error e =>
          rw [hu] at h
          cases h
        | ok r' =>
          rw [hu] at h
          cases h
          rw [relocatedEmplaceBack_ok_eq v newAddr x copyOk r' hwf hu]
          refine ⟨rfl, by show v.size_ + 1 - 1 = pos; omega, ?_⟩
          rw [hpe]
          exact happend
      · rw [relocatedEmplace_mid_eq v pos newAddr x copyOk r hwf (by omega) h]
        exact ⟨rfl, rfl, hmid (by omega)⟩
    · rw [if_neg hfull] at h
      by_cases hpe : pos = v.size_
      · rw [Vector.UnusedEmplace, if_pos (by rw [hpe, beq_self_eq_true])] at h
        cases h
        refine ⟨rfl, by show v.size_ + 1 - 1 = pos; omega, ?_⟩
        rw [hpe]
        exact happend
      · rw [unusedEmplace_mid_eq v pos x hwf (by omega)] at h
        cases h
        exact ⟨rfl, rfl, hmid (by omega)⟩
  exact ⟨hEB, hEB, hEm, hEm⟩

/-- C10 witness: a two-element vector with room (capacity 4), appending and
inserting at position 1. -/
theorem insertion_returns_new_element_position_instance :
    ((⟨⟨1, 4, [5, 6]⟩, 2⟩ : Vector Nat).data_.contents.length
        = (⟨⟨1, 4, [5, 6]⟩, 2⟩ : Vector Nat).size_) ∧
    ((1 : Nat) ≤ (⟨⟨1, 4, [5, 6]⟩, 2⟩ : Vector Nat).size_) ∧
    ((∀ r, Vector.EmplaceBack (⟨⟨1, 4, [5, 6]⟩, 2⟩ : Vector Nat) 7 (some 9)
        (fun _ _ => true) = .ok r →
        r.1.size_ = (⟨⟨1, 4, [5, 6]⟩, 2⟩ : Vector Nat).size_ + 1 ∧ r.2 = r.1.size_ - 1 ∧
          r.1.data_.contents[r.2]? = some 9) ∧
      (∀ r, Vector.PushBack (⟨⟨1, 4, [5, 6]⟩, 2⟩ : Vector Nat) (some 9) 7
        (fun _ _ => true) = .ok r →
        r.1.size_ = (⟨⟨1, 4, [5, 6]⟩, 2⟩ : Vector Nat).size_ + 1 ∧ r.2 = r.1.size_ - 1 ∧
          r.1.data_.contents[r.2]? = some 9) ∧
      (∀ r, Vector.Emplace (⟨⟨1, 4, [5, 6]⟩, 2⟩ : Vector Nat) 1 7 (some 9)
        (fun _ _ => true) = .ok r →
        r.1.size_ = (⟨⟨1, 4, [5, 6]⟩, 2⟩ : Vector Nat).size_ + 1 ∧ r.2 = 1 ∧
          r.1.data_.contents[1]? = some 9) ∧
      (∀ r, Vector.Insert (⟨⟨1, 4, [5, 6]⟩, 2⟩ : Vector Nat) 1 (some 9) 7
        (fun _ _ => true) = .ok r →
        r.1.size_ = (⟨⟨1, 4, [5, 6]⟩, 2⟩ : Vector Nat).size_ + 1 ∧ r.2 = 1 ∧
          r.1.data_.contents[1]? = some 9)) :=
  ⟨by decide, by decide,
    insertion_returns_new_element_position (⟨⟨1, 4, [5, 6]⟩, 2⟩ : Vector Nat) 1 7 9
      (fun _ _ => true) (by decide) (by decide)⟩

/-- C8: erasing at a valid position `i < Size()` returns the index `i` (the
slot that now holds the element that followed the erased one; when `i` was
the last index this is the new end of the sequence), shrinks the size by
one, keeps the elements before `i`, shifts the elements after `i` one slot
left in order, and leaves the block (capacity and address) alone. -/
theorem erase_shifts_left {α : Type} (v : Vector α) (i : Nat)
    (hwf : v.data_.contents.length = v.size_) (hi : i < v.size_) :
    (Vector.Erase v i).2 = i ∧
    (Vector.Erase v i).1.size_ = v.size_ - 1 ∧
    (Vector.Erase v i).1.data_.contents =
      v.data_.contents.take i ++ v.data_.contents.drop (i + 1) ∧
    (Vector.Erase v i).1.data_.capacity_ = v.data_.capacity_ ∧
    (Vector.Erase v i).1.data_.buffer_ = v.data_.buffer_ := by
  have hne : (i == v.size_) = false := by
    simp only [beq_eq_false_iff_ne, ne_eq]
    omega
  have hshift : (v.data_.contents.take i ++ (v.data_.contents.drop (i + 1) ++
      v.data_.contents.drop (v.size_ - 1))).take (v.size_ - 1)
      = v.data_.contents.take i ++ v.data_.contents.drop (i + 1) := by
    rw [← List.append_assoc]
    apply List.take_left'
    rw [List.length_append, List.length_take, List.length_drop, hwf]
    omega
  simp [Vector.Erase, hne, Vector.PopBack, hshift]

/-- C8 witness: erasing position 1 of a four-element vector, and (through
the same theorem) erasing the last position 3. -/
theorem erase_shifts_left_instance :
    ((⟨⟨1, 5, [1, 2, 3, 4]⟩, 4⟩ : Vector Nat).data_.contents.length
        = (⟨⟨1, 5, [1, 2, 3, 4]⟩, 4⟩ : Vector Nat).size_) ∧
    ((1 : Nat) < (⟨⟨1, 5, [1, 2, 3, 4]⟩, 4⟩ : Vector Nat).size_) ∧
    ((Vector.Erase (⟨⟨1, 5, [1, 2, 3, 4]⟩, 4⟩ : Vector Nat) 1).2 = 1 ∧
      (Vector.Erase (⟨⟨1, 5, [1, 2, 3, 4]⟩, 4⟩ : Vector Nat) 1).1.size_ = 4 - 1 ∧
      (Vector.Erase (⟨⟨1, 5, [1, 2, 3, 4]⟩, 4⟩ : Vector Nat) 1).1.data_.contents =
        [1, 2, 3, 4].take 1 ++ [1, 2, 3, 4].drop 2 ∧
      (Vector.Erase (⟨⟨1, 5, [1, 2, 3, 4]⟩, 4⟩ : Vector Nat) 1).1.data_.capacity_ = 5 ∧
      (Vector.Erase (⟨⟨1, 5, [1, 2, 3, 4]⟩, 4⟩ : Vector Nat) 1).1.data_.buffer_ = 1) :=
  ⟨by decide, by decide,
    erase_shifts_left (⟨⟨1, 5, [1, 2, 3, 4]⟩, 4⟩ : Vector Nat) 1 (by decide) (by decide)⟩

/-- A successful copy construction makes a block at the fresh address of
capacity `other.Size()` holding copies of exactly the live elements. -/
theorem copyCtor_ok_eq {α : Type} (src : Vector α) (newAddr : Nat)
    (copyOk : Nat → α → Bool) (temp : Vector α)
    (hs : src.data_.contents.length = src.size_)
    (h : Vector.copyCtor src newAddr copyOk = .ok temp) :
    temp = ⟨⟨newAddr, src.size_, src.data_.contents⟩, src.size_⟩ := by
  have hsrc : src.data_.contents.take src.size_ = src.data_.contents :=
    List.take_of_length_le (le_of_eq hs)
  rw [Vector.copyCtor] at h
  cases hu : uninitCopyN copyOk (src.data_.contents.take src.size_) 0
      (List.replicate src.size_ (none : Option α)) 0 with
  | error b =>
    rw [hu] at h
    cases h
  | ok b =>
    rw [hu] at h
    cases h
    have hb := uninitCopyN_ok_eq copyOk _ 0 _ 0 _
      (by
        rw [hsrc, hs, List.length_replicate]
        omega) hu
    rw [List.take_zero, List.nil_append, Nat.zero_add, hsrc, hs,
      drop_replicate, Nat.sub_self] at hb
    have hlv : liveVals b src.size_ = src.data_.contents := by
      rw [hb, List.replicate_zero, List.append_nil, liveVals,
        List.take_of_length_le (by rw [List.length_map, hs]), reduceOption_map_some]
    rw [hlv]

/-- C7: copy assignment on distinct vectors.  When the source's size exceeds
the destination's capacity, a full temporary copy is built and swapped in,
so any error leaves the destination exactly unchanged (first conjunct).  Any
successful assignment — copy-and-swap or in place — leaves the destination
with the source's size and element values, and when the destination's
capacity sufficed (the in-place branch: prefix assignment, then destroying
the excess tail or copy-constructing the missing elements) the block is not
reallocated: same address, same capacity (second conjunct). -/
theorem copyAssign_semantics {α : Type} (dst src : Vector α) (newAddr : Nat)
    (copyOk : Nat → α → Bool)
    (hd : dst.data_.contents.length = dst.size_)
    (hs : src.data_.contents.length = src.size_) :
    (src.size_ > dst.Capacity →
      ∀ e, Vector.copyAssign dst src newAddr copyOk = .error e → e = dst) ∧
    (∀ d, Vector.copyAssign dst src newAddr copyOk = .ok d →
      d.size_ = src.size_ ∧ d.data_.contents = src.data_.contents ∧
      (src.size_ ≤ dst.Capacity →
        d.data_.buffer_ = dst.data_.buffer_ ∧ d.data_.capacity_ = dst.data_.capacity_)) := by
  have hsrc : src.data_.contents.take src.size_ = src.data_.contents :=
    List.take_of_length_le (le_of_eq hs)
  constructor
  · intro hgt e he
    have hgt' : src.size_ > dst.data_.capacity_ := hgt
    rw [Vector.copyAssign, if_pos hgt'] at he
    cases hcc : Vector.copyCtor src newAddr copyOk with
    | error u =>
      rw [hcc] at he
      cases he
      rfl
    | ok temp =>
      rw [hcc] at he
      cases he
  · intro d hok
    by_cases hgt : src.size_ > dst.data_.capacity_
    · rw [Vector.copyAssign, if_pos hgt] at hok
      cases hcc : Vector.copyCtor src newAddr copyOk with
      | error u =>
        rw [hcc] at hok
        cases hok
      | ok temp =>
        rw [hcc] at hok
        cases hok
        rw [copyCtor_ok_eq src newAddr copyOk temp hs hcc]
        refine ⟨rfl, rfl, ?_⟩
        intro habs
        exact absurd habs (by exact not_le_of_lt hgt)
    · rw [Vector.copyAssign, if_neg hgt] at hok
      have hseg : (src.data_.contents.take (min dst.size_ src.size_)).length
          = min dst.size_ src.size_ := by
        rw [List.length_take, hs]
        omega
      cases hal : assignLoop copyOk
          (src.data_.contents.take (min dst.size_ src.size_)) 0 dst.data_.contents with
      | error cMid =>
        simp only [hal] at hok
        cases hok
      | ok c1 =>
        simp only [hal] at hok
        have hc1 := assignLoop_ok copyOk _ 0 _ _
          (by
            rw [hseg, hd]
            omega) hal
        rw [List.take_zero, List.nil_append, Nat.zero_add, hseg] at hc1
        rcases Nat.lt_trichotomy dst.size_ src.size_ with hlt | heq | hgt2
        · rw [if_neg (by omega), if_pos hlt] at hok
          have hmin : min dst.size_ src.size_ = dst.size_ := by omega
          have hdrop : dst.data_.contents.drop dst.size_ = [] :=
            List.drop_eq_nil_of_le (le_of_eq hd)
          rw [hmin, hdrop, List.append_nil] at hc1
          cases hcl : copyList copyOk
              (src.data_.contents.take src.size_ |>.drop dst.size_) dst.size_ with
          | error u =>
            simp only [hcl] at hok
            cases hok
          | ok extra =>
            simp only [hcl] at hok
            cases hok
            have hextra := copyList_ok copyOk _ dst.size_ _ hcl
            refine ⟨rfl, ?_, fun _ => ⟨rfl, rfl⟩⟩
            show c1 ++ extra = src.data_.contents
            rw [hc1, hextra, hsrc, List.take_append_drop]
        · rw [if_neg (by omega), if_neg (by omega)] at hok
          cases hok
          have hmin : min dst.size_ src.size_ = src.size_ := by omega
          have hdrop : dst.data_.contents.drop src.size_ = [] :=
            List.drop_eq_nil_of_le (by omega)
          rw [hmin, hdrop, List.append_nil, hsrc] at hc1
          refine ⟨rfl, ?_, fun _ => ⟨rfl, rfl⟩⟩
          show c1 = src.data_.contents
          exact hc1
        · rw [if_pos hgt2] at hok
          cases hok
          have hmin : min dst.size_ src.size_ = src.size_ := by omega
          rw [hmin, hsrc] at hc1
          refine ⟨rfl, ?_, fun _ => ⟨rfl, rfl⟩⟩
          show c1.take src.size_ = src.data_.contents
          rw [hc1, List.take_append_of_le_length (le_of_eq hs.symm),
            List.take_of_length_le (le_of_eq hs)]

/-- C7 witness: assigning a three-element source into a one-element
destination of capacity 1 (the copy-and-swap branch). -/
theorem copyAssign_semantics_instance :
    ((⟨⟨1, 1, [5]⟩, 1⟩ : Vector Nat).data_.contents.length
        = (⟨⟨1, 1, [5]⟩, 1⟩ : Vector Nat).size_) ∧
    ((⟨⟨2, 4, [1, 2, 3]⟩, 3⟩ : Vector Nat).data_.contents.length
        = (⟨⟨2, 4, [1, 2, 3]⟩, 3⟩ : Vector Nat).size_) ∧
    (((⟨⟨2, 4, [1, 2, 3]⟩, 3⟩ : Vector Nat).size_ > (⟨⟨1, 1, [5]⟩, 1⟩ : Vector Nat).Capacity →
      ∀ e, Vector.copyAssign (⟨⟨1, 1, [5]⟩, 1⟩ : Vector Nat) ⟨⟨2, 4, [1, 2, 3]⟩, 3⟩ 9
        (fun i _ => !(i == 1)) = .error e → e = (⟨⟨1, 1, [5]⟩, 1⟩ : Vector Nat)) ∧
    (∀ d, Vector.copyAssign (⟨⟨1, 1, [5]⟩, 1⟩ : Vector Nat) ⟨⟨2, 4, [1, 2, 3]⟩, 3⟩ 9
        (fun i _ => !(i == 1)) = .ok d →
      d.size_ = (⟨⟨2, 4, [1, 2, 3]⟩, 3⟩ : Vector Nat).size_ ∧
      d.data_.contents = (⟨⟨2, 4, [1, 2, 3]⟩, 3⟩ : Vector Nat).data_.contents ∧
      ((⟨⟨2, 4, [1, 2, 3]⟩, 3⟩ : Vector Nat).size_ ≤ (⟨⟨1, 1, [5]⟩, 1⟩ : Vector Nat).Capacity →
        d.data_.buffer_ = 1 ∧ d.data_.capacity_ = 1))) :=
  ⟨by decide, by decide,
    copyAssign_semantics (⟨⟨1, 1, [5]⟩, 1⟩ : Vector Nat) ⟨⟨2, 4, [1, 2, 3]⟩, 3⟩ 9
      (fun i _ => !(i == 1)) (by decide) (by decide)⟩

end AdvancedVector
